import Mathlib

/-!
Verification of the array hash table in src/ahtable.c (hat-trie).

The table is embedded at the byte level: a bucket (slot_t) is a list of
byte values, a table (ahtable_t) carries the same fields as the C struct,
and each C function is translated into a pure Lean function.  The external
hash function (superfasthash, out of scope per the spec) is a parameter
hash : List Nat -> Nat; the code only ever uses hash key % n.  Two-byte
key-length prefixes are stored through a uint16 write; the spec fixes the
in-memory interpretation to little-endian, so byte 0 is the low byte.
-/

set_option maxHeartbeats 1000000
set_option maxRecDepth 8192
set_option linter.unusedVariables false

/-- Modelled from the spec: the width in bytes of value_t.  The header
ahtable.h is not part of src/; the spec says the value type is a
fixed-width unsigned integer, typically 64-bit, so valueSize = 8. -/
def valueSize : Nat := 8

/-- One logical record: the key bytes and the raw bytes of the value field. -/
abbrev Entry := List Nat × List Nat

/-- The ahtable_t struct.  A slot is Option (List Nat): none models a NULL
slot_t pointer, some buf models an allocated bucket buffer of bytes. -/
structure ahtable_t where
  flag : Nat
  c0 : Nat
  c1 : Nat
  n : Nat
  m : Nat
  max_m : Nat
  slots : List (Option (List Nat))
deriving DecidableEq

/-- ahtable_max_load_factor is the double 5.0; (size_t)(5.0 * (double) n)
computes exactly 5 * n for every table size that fits a double, so the
factor is modelled as the natural number 5. -/
def ahtable_max_load_factor : Nat := 5

/-- ahtable_initial_size = 8. -/
def ahtable_initial_size : Nat := 8

/-- ahtable_create_n: zeroed metadata, m = 0, max_m = 5 * n, n NULL slots. -/
def ahtable_create_n (n : Nat) : ahtable_t :=
  { flag := 0, c0 := 0, c1 := 0, n := n, m := 0,
    max_m := ahtable_max_load_factor * n,
    slots := List.replicate n none }

/-- ahtable_create = ahtable_create_n 8. -/
def ahtable_create : ahtable_t := ahtable_create_n ahtable_initial_size

/-- ahtable_size returns T->m. -/
def ahtable_size (T : ahtable_t) : Nat := T.m

/-- ahtable_clear: frees every slot, sets n back to the initial size and
zeroes the slot array.  Note the source resets neither m nor max_m. -/
def ahtable_clear (T : ahtable_t) : ahtable_t :=
  { T with n := ahtable_initial_size,
           slots := List.replicate ahtable_initial_size none }

/-- The key-length bytes written by ins_key: one byte equal to len when
len < 128, otherwise the uint16 (uint16_t) len | 0x8000 stored
little-endian (byte 0 = low byte, byte 1 = high byte). -/
def lenEnc (len : Nat) : List Nat :=
  if len < 128 then [len]
  else [(len % 65536 ||| 32768) % 256, ((len % 65536 ||| 32768) / 256) % 256]

/-- ins_key: writes the length bytes, the key bytes and a zeroed value
field, returning the record bytes together with the offset of the value
field inside the record (the value_t* handle ins_key hands back). -/
def ins_key (key : List Nat) : List Nat × Nat :=
  (lenEnc key.length ++ key ++ List.replicate valueSize 0,
   (lenEnc key.length).length + key.length)

/-- The length decode shared by get_key, ahtable_iter_next, ahtable_iter_key
and ahtable_iter_val: if the high bit of the first byte is set, the length
is the low 15 bits of the little-endian uint16 at the cursor and two bytes
are consumed, else the first byte is the length and one byte is consumed.
Returns (key length, bytes consumed). -/
def decodeLen (b : Nat) (rest : List Nat) : Nat × Nat :=
  if b &&& 128 ≠ 0 then ((b + 256 * rest.headD 0) &&& 32767, 2) else (b, 1)

/-- Result of the bucket scan loop in get_key: a value-handle offset on a
key match, or the offset at which the scan stopped (the terminator the
loop exited on) on a miss. -/
inductive ScanResult where
  | hit (off : Nat)
  | miss (stop : Nat)
deriving DecidableEq

/-- The while loop of get_key over one bucket buffer.  buf is the
remaining buffer, pos the absolute offset of its first byte.  The fuel
argument only serves structural termination; callers pass the buffer
length, which step-counting shows is always enough (each iteration
consumes at least one byte).  An empty remaining buffer stops the scan;
the C code can only reach that state on a malformed bucket, where it
would read past the allocation. -/
def scanGo (key : List Nat) : Nat → List Nat → Nat → ScanResult
  | _, [], pos => ScanResult.miss pos
  | 0, _ :: _, pos => ScanResult.miss pos
  | fuel + 1, b :: rest, pos =>
    if b = 0 then ScanResult.miss pos
    else
      -- get the key length: two bytes if the high bit of byte 0 is set
      let pr := decodeLen b rest
      let body := (b :: rest).drop pr.2
      if pr.1 ≠ key.length then
        -- skip keys that are longer (or shorter) than ours
        scanGo key fuel (body.drop (pr.1 + valueSize)) (pos + pr.2 + pr.1 + valueSize)
      else if body.take key.length = key then
        -- key found: the value sits right after the key bytes
        ScanResult.hit (pos + pr.2 + key.length)
      else
        scanGo key fuel (body.drop (pr.1 + valueSize)) (pos + pr.2 + pr.1 + valueSize)

/-- One step of the iterator (ahtable_iter_key / ahtable_iter_val /
ahtable_iter_next) restricted to a single bucket: decode the length
bytes, emit the key span and the value field, advance past the record;
stop on the terminator.  Fuel as in scanGo. -/
def iterGo : Nat → List Nat → List Entry
  | _, [] => []
  | 0, _ :: _ => []
  | fuel + 1, b :: rest =>
    if b = 0 then []
    else
      let pr := decodeLen b rest
      let body := (b :: rest).drop pr.2
      (body.take pr.1, (body.drop pr.1).take valueSize) ::
        iterGo fuel (body.drop (pr.1 + valueSize))

/-- All records of one bucket buffer, in insertion order. -/
def slotRecords (buf : List Nat) : List Entry := iterGo buf.length buf

/-- Records of an optional slot; ahtable_iter_begin / ahtable_iter_next
skip NULL slots and slots whose first byte is the terminator. -/
def optRecords : Option (List Nat) → List Entry
  | none => []
  | some buf => slotRecords buf

/-- A full iterator traversal: buckets in ascending index order (the
iterator walks i = 0 .. n-1), records in insertion order inside each
bucket. -/
def tableRecords (T : ahtable_t) : List Entry :=
  ((T.slots.take T.n).map optRecords).flatten

/-- Re-encoding of one record during expansion: ins_key writes the length
bytes, the key and a zeroed value field, then the value bytes are copied
in with *u = *v. -/
def encEntry (r : Entry) : List Nat :=
  lenEnc r.1.length ++ r.1 ++ (r.2 ++ List.replicate valueSize 0).take valueSize

/-- The record bytes of a bucket holding the given records. -/
def slotBody (recs : List Entry) : List Nat := (recs.map encEntry).flatten

/-- A full bucket buffer: records then the 0x00 terminator. -/
def encSlot (recs : List Entry) : List Nat := slotBody recs ++ [0]

/-- ahtable_expand: doubles the bucket count and replays every record of a
full iterator traversal into bucket hash(key) % (2n).  Pass 1 of the C
code only computes per-bucket byte sizes; its observable effect is that a
destination bucket is allocated (non-NULL) iff some record maps to it,
which the fold below reproduces.  Pass 2 appends each record at its
bucket cursor; the terminator byte sits after the last record, i.e. at
the end of each allocated buffer.  m is left unchanged and max_m is
recomputed from the new n. -/
def ahtable_expand (hash : List Nat → Nat) (T : ahtable_t) : ahtable_t :=
  let new_n := 2 * T.n
  let recs := tableRecords T
  let placed := recs.foldl
    (fun sl r =>
      sl.set (hash r.1 % new_n)
        (some (((sl.getD (hash r.1 % new_n) none).getD []) ++ encEntry r)))
    (List.replicate new_n none)
  { T with slots := placed.map (Option.map (fun b => b ++ [0])),
           n := new_n,
           max_m := ahtable_max_load_factor * new_n }

/-- The body of get_key after the preemptive-resize check: hash to a
bucket; a NULL bucket is created with the single record on insert; an
existing bucket is scanned, a hit returns the existing value handle, and
a miss appends the record at the terminator position (old_size - 1),
re-terminating the buffer.  The returned handle is (bucket index, byte
offset of the value field). -/
def get_key_core (hash : List Nat → Nat) (T : ahtable_t) (key : List Nat)
    (insert_missing : Bool) : ahtable_t × Option (Nat × Nat) :=
  let i := hash key % T.n
  match T.slots.getD i none with
  | none =>
    if insert_missing then
      ({ T with m := T.m + 1,
                slots := T.slots.set i (some ((ins_key key).1 ++ [0])) },
       some (i, (ins_key key).2))
    else (T, none)
  | some s =>
    match scanGo key s.length s 0 with
    | ScanResult.hit off => (T, some (i, off))
    | ScanResult.miss stop =>
      if insert_missing then
        ({ T with m := T.m + 1,
                  slots := T.slots.set i
                    (some (s.take stop ++ (ins_key key).1 ++ [0])) },
         some (i, stop + (ins_key key).2))
      else (T, none)

/-- get_key: if we are at capacity and inserting, preemptively resize,
then run the bucket lookup/insert. -/
def get_key (hash : List Nat → Nat) (T : ahtable_t) (key : List Nat)
    (insert_missing : Bool) : ahtable_t × Option (Nat × Nat) :=
  get_key_core hash
    (if insert_missing = true ∧ T.max_m ≤ T.m then ahtable_expand hash T else T)
    key insert_missing

/-- ahtable_get = get_key with insert_missing = true. -/
def ahtable_get (hash : List Nat → Nat) (T : ahtable_t) (key : List Nat) :
    ahtable_t × Option (Nat × Nat) :=
  get_key hash T key true

/-- ahtable_tryget = get_key with insert_missing = false. -/
def ahtable_tryget (hash : List Nat → Nat) (T : ahtable_t) (key : List Nat) :
    ahtable_t × Option (Nat × Nat) :=
  get_key hash T key false

/-- Little-endian byte encoding of a value (w bytes). -/
def leBytes : Nat → Nat → List Nat
  | 0, _ => []
  | w + 1, v => v % 256 :: leBytes w (v / 256)

/-- Little-endian decoding of value bytes. -/
def leVal (l : List Nat) : Nat := l.foldr (fun b acc => b + 256 * acc) 0

/-- The value bytes a handle (bucket index, value offset) points at. -/
def valueAt (T : ahtable_t) (h : Nat × Nat) : List Nat :=
  (((T.slots.getD h.1 none).getD []).drop h.2).take valueSize

/-- Writing a value through a returned value_t* handle: the C caller does
*val = v, overwriting the valueSize bytes of the value field (values are
fixed-width unsigned, so v is taken mod 2^64). -/
def writeValue (T : ahtable_t) (h : Nat × Nat) (v : Nat) : ahtable_t :=
  match T.slots.getD h.1 none with
  | none => T
  | some buf =>
    let buf2 := buf.take h.2 ++ leBytes valueSize (v % 18446744073709551616) ++
      buf.drop (h.2 + valueSize)
    { T with slots := T.slots.set h.1 (some buf2) }

/-- A key length the length prefix round-trips: nonzero, representable in
15 bits, and with a low byte whose high bit is set whenever two prefix
bytes are used (the decoder tests the high bit of byte 0, which under the
little-endian uint16 store is the low byte of len | 0x8000). -/
def GoodLen (L : Nat) : Prop := 1 ≤ L ∧ L ≤ 32767 ∧ (L < 128 ∨ 128 ≤ L % 256)

instance : DecidablePred GoodLen := fun L => by unfold GoodLen; infer_instance

/-- A well-formed stored record: decodable key length, value field of
exactly valueSize bytes. -/
def GoodEntry (r : Entry) : Prop := GoodLen r.1.length ∧ r.2.length = valueSize

instance : DecidablePred GoodEntry := fun r => by unfold GoodEntry; infer_instance

/-- Representation of one slot by its record list. -/
def SlotRep (s : Option (List Nat)) (recs : List Entry) : Prop :=
  (s = none ∧ recs = []) ∨ s = some (encSlot recs)

instance (s : Option (List Nat)) (recs : List Entry) : Decidable (SlotRep s recs) := by
  unfold SlotRep; infer_instance

/-- The bucket-layout invariants of the spec, with recss listing the
records of each bucket: the slot array has n buckets, every bucket is a
packed record sequence plus terminator, every record is well formed and
hashed to its bucket, m counts the records, max_m = 5 * n, and no two
records share a key. -/
def TableRep (hash : List Nat → Nat) (T : ahtable_t) (recss : List (List Entry)) : Prop :=
  T.slots.length = T.n ∧ 1 ≤ T.n ∧ recss.length = T.n ∧
  T.max_m = ahtable_max_load_factor * T.n ∧ T.m = recss.flatten.length ∧
  (recss.flatten.map Prod.fst).Nodup ∧
  ∀ i, i < T.n →
    SlotRep (T.slots.getD i none) (recss.getD i []) ∧
    ∀ r ∈ recss.getD i [], GoodEntry r ∧ hash r.1 % T.n = i

instance (hash : List Nat → Nat) (T : ahtable_t) (recss : List (List Entry)) :
    Decidable (TableRep hash T recss) := by
  unfold TableRep; infer_instance

/-- A table satisfies the bucket-layout invariants if some record lists
represent it. -/
def TableWF (hash : List Nat → Nat) (T : ahtable_t) : Prop :=
  ∃ recss, TableRep hash T recss

/-- The per-bucket record lists after expansion: bucket j receives, in
iteration order, every record whose key hashes to j mod the doubled
bucket count. -/
def expandRecss (hash : List Nat → Nat) (n2 : Nat) (recs : List Entry) :
    List (List Entry) :=
  (List.range n2).map (fun j => recs.filter (fun r => hash r.1 % n2 = j))

/-- The table produced by the two insertion branches of get_key_core:
m incremented, bucket i replaced by the given buffer. -/
def insertResult (T : ahtable_t) (i : Nat) (buf : List Nat) : ahtable_t :=
  { T with m := T.m + 1, slots := T.slots.set i (some buf) }

/-- A constant hash, as in the spec's hash-independence property: all
records collide into one bucket but correctness must hold. -/
def hashZero : List Nat → Nat := fun _ => 0

/-- A concrete table holding the single pair ("a", 0), used to instantiate
the invariant-conditioned theorems. -/
def exTable : ahtable_t :=
  { flag := 0, c0 := 0, c1 := 0, n := 8, m := 1, max_m := 40,
    slots := [some [1, 97, 0, 0, 0, 0, 0, 0, 0, 0, 0],
              none, none, none, none, none, none, none] }

/-- The record lists representing exTable. -/
def exRecss : List (List Entry) :=
  [[([97], [0, 0, 0, 0, 0, 0, 0, 0])], [], [], [], [], [], [], []]

/-! ### Basic facts about the length encoding -/

theorem byte_and_128 : ∀ b, b < 256 → b &&& 128 = if b < 128 then 0 else 128 := by
  decide

theorem or_32768_eq (L : Nat) (h : L < 32768) : L ||| 32768 = L + 32768 := by
  have h2 : (2 : Nat) ^ 15 * 1 + L = 2 ^ 15 * 1 ||| L := Nat.mul_add_lt_is_or (by omega) 1
  have h3 : (2 : Nat) ^ 15 = 32768 := by norm_num
  rw [h3, Nat.mul_one] at h2
  rw [Nat.lor_comm]
  omega

theorem and_32767_eq (x : Nat) : x &&& 32767 = x % 32768 := by
  have h := Nat.and_pow_two_sub_one_eq_mod x 15
  norm_num at h
  exact h

theorem lenEnc_small {L : Nat} (h : L < 128) : lenEnc L = [L] := by
  simp [lenEnc, h]

theorem lenEnc_large {L : Nat} (h1 : 128 ≤ L) (h2 : L ≤ 32767) :
    lenEnc L = [L % 256, (L + 32768) / 256] := by
  have hmod : L % 65536 = L := Nat.mod_eq_of_lt (by omega)
  have hor : L ||| 32768 = L + 32768 := or_32768_eq L (by omega)
  simp only [lenEnc, if_neg (show ¬ L < 128 by omega), hmod, hor, List.cons.injEq,
    and_true]
  omega

theorem lenEnc_length_small {L : Nat} (h : L < 128) : (lenEnc L).length = 1 := by
  rw [lenEnc_small h]
  rfl

theorem lenEnc_length_large {L : Nat} (h1 : 128 ≤ L) (h2 : L ≤ 32767) :
    (lenEnc L).length = 2 := by
  rw [lenEnc_large h1 h2]
  rfl

theorem decodeLen_small {L : Nat} (h1 : 1 ≤ L) (h : L < 128) (rest : List Nat) :
    decodeLen L rest = (L, 1) := by
  have hb : L &&& 128 = 0 := by
    rw [byte_and_128 L (by omega)]
    simp [h]
  simp [decodeLen, hb]

theorem decodeLen_large {L : Nat} (h1 : 128 ≤ L) (h2 : L ≤ 32767)
    (h3 : 128 ≤ L % 256) (tail : List Nat) :
    decodeLen (L % 256) ((L + 32768) / 256 :: tail) = (L, 2) := by
  have hlt : L % 256 < 256 := Nat.mod_lt _ (by omega)
  have hb : L % 256 &&& 128 = 128 := by
    rw [byte_and_128 _ hlt]
    rw [if_neg (show ¬ L % 256 < 128 by omega)]
  have hc : L % 256 &&& 128 ≠ 0 := by
    rw [hb]
    omega
  have hsum : L % 256 + 256 * ((L + 32768) / 256) = L + 32768 := by omega
  unfold decodeLen
  rw [if_pos hc]
  simp only [List.headD_cons]
  rw [hsum, and_32767_eq]
  have hfin : (L + 32768) % 32768 = L := by omega
  rw [hfin]

/-- Decoding at the head of an encoded record recovers its length and
prefix size, provided the length is good. -/
theorem decodeLen_lenEnc {L : Nat} (hg : GoodLen L) (tail : List Nat) :
    ∃ b rest, lenEnc L ++ tail = b :: rest ∧ b ≠ 0 ∧
      decodeLen b rest = (L, (lenEnc L).length) ∧
      (b :: rest).drop (lenEnc L).length = tail := by
  obtain ⟨h1, h2, h3⟩ := hg
  by_cases hs : L < 128
  · refine ⟨L, tail, by rw [lenEnc_small hs]; rfl, by omega, ?_, ?_⟩
    · rw [decodeLen_small h1 hs, lenEnc_length_small hs]
    · rw [lenEnc_length_small hs]; rfl
  · have h128 : 128 ≤ L := by omega
    have hlow : 128 ≤ L % 256 := by
      rcases h3 with h | h
      · omega
      · exact h
    refine ⟨L % 256, (L + 32768) / 256 :: tail, by rw [lenEnc_large h128 h2]; rfl,
      by omega, ?_, ?_⟩
    · rw [decodeLen_large h128 h2 hlow, lenEnc_length_large h128 h2]
    · rw [lenEnc_length_large h128 h2]; rfl

theorem encEntry_eq {r : Entry} (hr : GoodEntry r) :
    encEntry r = lenEnc r.1.length ++ r.1 ++ r.2 := by
  obtain ⟨-, hv⟩ := hr
  unfold encEntry
  rw [List.take_append_of_le_length (by simp [hv]), List.take_of_length_le (by omega)]

theorem encEntry_length {r : Entry} (hr : GoodEntry r) :
    (encEntry r).length = (lenEnc r.1.length).length + r.1.length + valueSize := by
  rw [encEntry_eq hr]
  simp [hr.2]
  omega

theorem encEntry_length_pos {r : Entry} (hr : GoodEntry r) :
    1 ≤ (encEntry r).length := by
  rw [encEntry_length hr]
  unfold valueSize
  omega

/-! ### Fuel adequacy: every scan step consumes at least one byte, so a
buffer-length fuel budget never runs out. -/

theorem decodeLen_snd_pos (b : Nat) (rest : List Nat) : 1 ≤ (decodeLen b rest).2 := by
  unfold decodeLen
  split
  · omega
  · omega

theorem drop_append_len {α : Type} (a b : List α) (k : Nat) :
    (a ++ b).drop (a.length + k) = b.drop k := by
  induction a with
  | nil => simp
  | cons x xs ih => simp [Nat.succ_add, ih]

theorem scanGo_fuel (key : List Nat) :
    ∀ f1 f2 buf pos, buf.length ≤ f1 → buf.length ≤ f2 →
      scanGo key f1 buf pos = scanGo key f2 buf pos := by
  intro f1
  induction f1 with
  | zero =>
    intro f2 buf pos h1 h2
    have hb : buf = [] := List.eq_nil_of_length_eq_zero (by omega)
    subst hb
    cases f2 <;> rfl
  | succ f ih =>
    intro f2 buf pos h1 h2
    cases buf with
    | nil => cases f2 <;> rfl
    | cons b rest =>
      cases f2 with
      | zero => simp at h2
      | succ g =>
        simp only [scanGo]
        have hp := decodeLen_snd_pos b rest
        have hlen : (((b :: rest).drop (decodeLen b rest).2).drop
            ((decodeLen b rest).1 + valueSize)).length ≤ rest.length := by
          simp only [List.length_drop, List.length_cons]
          omega
        simp only [List.length_cons] at h1 h2
        split_ifs
        · rfl
        · exact ih g _ _ (by omega) (by omega)
        · rfl
        · exact ih g _ _ (by omega) (by omega)

theorem iterGo_fuel :
    ∀ f1 f2 buf, buf.length ≤ f1 → buf.length ≤ f2 →
      iterGo f1 buf = iterGo f2 buf := by
  intro f1
  induction f1 with
  | zero =>
    intro f2 buf h1 h2
    have hb : buf = [] := List.eq_nil_of_length_eq_zero (by omega)
    subst hb
    cases f2 <;> rfl
  | succ f ih =>
    intro f2 buf h1 h2
    cases buf with
    | nil => cases f2 <;> rfl
    | cons b rest =>
      cases f2 with
      | zero => simp at h2
      | succ g =>
        simp only [iterGo]
        have hp := decodeLen_snd_pos b rest
        have hlen : (((b :: rest).drop (decodeLen b rest).2).drop
            ((decodeLen b rest).1 + valueSize)).length ≤ rest.length := by
          simp only [List.length_drop, List.length_cons]
          omega
        simp only [List.length_cons] at h1 h2
        split_ifs
        · rfl
        · rw [ih g _ (by omega) (by omega)]

/-! ### Stepping over one well-formed record -/

theorem scanGo_entry (key : List Nat) (r : Entry) (hr : GoodEntry r)
    (tail : List Nat) (fuel pos : Nat) :
    scanGo key (fuel + 1) (encEntry r ++ tail) pos =
      if r.1 = key then
        ScanResult.hit (pos + (lenEnc r.1.length).length + key.length)
      else scanGo key fuel tail (pos + (encEntry r).length) := by
  obtain ⟨b, rest, heq, hb0, hdec, hdrop⟩ := decodeLen_lenEnc hr.1 (r.1 ++ r.2 ++ tail)
  have henc : encEntry r ++ tail = b :: rest := by
    rw [encEntry_eq hr, ← heq]
    simp [List.append_assoc]
  rw [henc]
  simp only [scanGo, if_neg hb0, hdec]
  have hbody : (b :: rest).drop ((lenEnc r.1.length).length) = r.1 ++ r.2 ++ tail := hdrop
  have hskip : ((b :: rest).drop ((lenEnc r.1.length).length)).drop
      (r.1.length + valueSize) = tail := by
    rw [hbody, List.append_assoc, drop_append_len, ← hr.2, List.drop_left]
  have hposs : pos + (lenEnc r.1.length).length + r.1.length + valueSize =
      pos + (encEntry r).length := by
    rw [encEntry_length hr]
    omega
  by_cases hk : r.1 = key
  · subst hk
    rw [if_neg (show ¬ r.1.length ≠ r.1.length by omega), if_pos, if_pos rfl]
    rw [hbody, List.append_assoc, List.take_left]
  · rw [if_neg hk]
    by_cases hlen : r.1.length = key.length
    · rw [if_neg (show ¬ r.1.length ≠ key.length by omega)]
      rw [if_neg]
      · rw [hskip, hposs]
      · rw [hbody, List.append_assoc, ← hlen, List.take_left]
        exact hk
    · rw [if_pos hlen, hskip, hposs]

theorem iterGo_entry (r : Entry) (hr : GoodEntry r) (tail : List Nat) (fuel : Nat) :
    iterGo (fuel + 1) (encEntry r ++ tail) = (r.1, r.2) :: iterGo fuel tail := by
  obtain ⟨b, rest, heq, hb0, hdec, hdrop⟩ := decodeLen_lenEnc hr.1 (r.1 ++ r.2 ++ tail)
  have henc : encEntry r ++ tail = b :: rest := by
    rw [encEntry_eq hr, ← heq]
    simp [List.append_assoc]
  rw [henc]
  simp only [iterGo, if_neg hb0, hdec]
  rw [hdrop]
  have htake : (r.1 ++ r.2 ++ tail).take r.1.length = r.1 := by
    rw [List.append_assoc, List.take_left]
  have hdropk : (r.1 ++ r.2 ++ tail).drop r.1.length = r.2 ++ tail := by
    rw [List.append_assoc, List.drop_left]
  have hskip : (r.1 ++ r.2 ++ tail).drop (r.1.length + valueSize) = tail := by
    rw [List.append_assoc, drop_append_len, ← hr.2, List.drop_left]
  rw [htake, hdropk, hskip, ← hr.2, List.take_left]

/-! ### Whole-bucket lemmas -/

theorem slotBody_nil : slotBody [] = [] := rfl

theorem slotBody_cons (r : Entry) (recs : List Entry) :
    slotBody (r :: recs) = encEntry r ++ slotBody recs := by
  simp [slotBody]

theorem encSlot_cons (r : Entry) (recs : List Entry) :
    encSlot (r :: recs) = encEntry r ++ encSlot recs := by
  simp [encSlot, slotBody_cons, List.append_assoc]

theorem encSlot_nil : encSlot [] = [0] := rfl

theorem encSlot_length_pos (recs : List Entry) : 1 ≤ (encSlot recs).length := by
  simp [encSlot]

/-- Decoding a bucket buffer with the iterator recovers exactly the records
it encodes. -/
theorem iterGo_encSlot (recs : List Entry) (hg : ∀ r ∈ recs, GoodEntry r) :
    ∀ fuel, (encSlot recs).length ≤ fuel → iterGo fuel (encSlot recs) = recs := by
  induction recs with
  | nil =>
    intro fuel hf
    rw [encSlot_nil] at hf ⊢
    cases fuel with
    | zero => simp at hf
    | succ f => simp [iterGo]
  | cons r recs ih =>
    intro fuel hf
    have hr : GoodEntry r := hg r (by simp)
    have hrest : ∀ x ∈ recs, GoodEntry x := fun x hx => hg x (by simp [hx])
    rw [encSlot_cons] at hf ⊢
    have h1 : 1 ≤ (encEntry r).length := encEntry_length_pos hr
    cases fuel with
    | zero =>
      simp only [List.length_append, Nat.le_zero] at hf
      omega
    | succ f =>
      rw [iterGo_entry r hr _ f]
      rw [iterGo_fuel f (encSlot recs).length _ ?_ (le_refl _), ih hrest _ (le_refl _)]
      simp only [List.length_append] at hf
      omega

theorem slotRecords_encSlot (recs : List Entry) (hg : ∀ r ∈ recs, GoodEntry r) :
    slotRecords (encSlot recs) = recs :=
  iterGo_encSlot recs hg _ (le_refl _)

/-- Scanning a bucket for a key none of its records carry stops at the
terminator, i.e. at offset (slotBody recs).length. -/
theorem scanGo_slot_miss (key : List Nat) (recs : List Entry)
    (hg : ∀ r ∈ recs, GoodEntry r) (hne : ∀ r ∈ recs, r.1 ≠ key) :
    ∀ fuel pos, (encSlot recs).length ≤ fuel →
      scanGo key fuel (encSlot recs) pos =
        ScanResult.miss (pos + (slotBody recs).length) := by
  induction recs with
  | nil =>
    intro fuel pos hf
    rw [encSlot_nil] at hf ⊢
    cases fuel with
    | zero => simp at hf
    | succ f => simp [scanGo, slotBody_nil]
  | cons r recs ih =>
    intro fuel pos hf
    have hr : GoodEntry r := hg r (by simp)
    have hrest : ∀ x ∈ recs, GoodEntry x := fun x hx => hg x (by simp [hx])
    have hnerest : ∀ x ∈ recs, x.1 ≠ key := fun x hx => hne x (by simp [hx])
    rw [encSlot_cons] at hf ⊢
    cases fuel with
    | zero =>
      have := encSlot_length_pos recs
      simp only [List.length_append, Nat.le_zero] at hf
      omega
    | succ f =>
      rw [scanGo_entry key r hr _ f pos, if_neg (hne r (by simp))]
      rw [scanGo_fuel key f (encSlot recs).length _ _ ?_ (le_refl _)]
      · rw [ih hrest hnerest _ _ (le_refl _), slotBody_cons]
        simp only [List.length_append]
        congr 1
        omega
      · simp only [List.length_append] at hf
        have h1 : 1 ≤ (encEntry r).length := encEntry_length_pos hr
        omega

/-- Scanning a bucket that stores the key returns a handle whose offset
addresses exactly the record's value field. -/
theorem scanGo_slot_hit (key : List Nat) (recs : List Entry)
    (hg : ∀ r ∈ recs, GoodEntry r) (r : Entry)
    (hfind : recs.find? (fun x => x.1 == key) = some r) :
    ∀ fuel pos, (encSlot recs).length ≤ fuel →
      ∃ loc, scanGo key fuel (encSlot recs) pos = ScanResult.hit (pos + loc) ∧
        ((encSlot recs).drop loc).take valueSize = r.2 ∧
        loc + valueSize ≤ (slotBody recs).length := by
  induction recs with
  | nil => simp at hfind
  | cons a recs ih =>
    intro fuel pos hf
    have ha : GoodEntry a := hg a (by simp)
    have hrest : ∀ x ∈ recs, GoodEntry x := fun x hx => hg x (by simp [hx])
    rw [encSlot_cons] at hf ⊢
    have h1 : 1 ≤ (encEntry a).length := encEntry_length_pos ha
    cases fuel with
    | zero =>
      have := encSlot_length_pos recs
      simp only [List.length_append, Nat.le_zero] at hf
      omega
    | succ f =>
      rw [scanGo_entry key a ha _ f pos]
      by_cases hk : a.1 = key
      · have hfa : r = a := by
          rw [List.find?_cons_of_pos _ (by simp [hk])] at hfind
          exact (Option.some.injEq _ _ ▸ hfind.symm)
        subst hfa
        subst hk
        rw [if_pos rfl]
        refine ⟨(lenEnc r.1.length).length + r.1.length, by rw [Nat.add_assoc], ?_, ?_⟩
        · rw [encEntry_eq ha]
          have hshape : lenEnc r.1.length ++ r.1 ++ r.2 ++ encSlot recs =
              (lenEnc r.1.length ++ r.1) ++ (r.2 ++ encSlot recs) := by
            simp [List.append_assoc]
          rw [hshape, List.drop_left' (by simp), ← ha.2, List.take_left]
        · rw [slotBody_cons]
          simp only [List.length_append]
          rw [encEntry_length ha]
          omega
      · rw [if_neg hk]
        rw [List.find?_cons_of_neg _ (by simp [hk])] at hfind
        rw [scanGo_fuel key f (encSlot recs).length _ _ ?_ (le_refl _)]
        · obtain ⟨loc, hres, hval, hbound⟩ := ih hrest hfind (encSlot recs).length
            (pos + (encEntry a).length) (le_refl _)
          refine ⟨(encEntry a).length + loc, ?_, ?_, ?_⟩
          · rw [hres]
            congr 1
            omega
          · rw [drop_append_len, hval]
          · rw [slotBody_cons]
            simp only [List.length_append]
            omega
        · simp only [List.length_append] at hf
          omega

/-! ### Small getD helpers -/

theorem getD_lt {α : Type} (l : List α) (d : α) (i : Nat) (h : i < l.length) :
    l.getD i d = l.get ⟨i, h⟩ := by
  simp [List.getD_eq_getElem?_getD, List.getElem?_eq_getElem h]

theorem getD_set_self {α : Type} (l : List α) (i : Nat) (a d : α)
    (h : i < l.length) : (l.set i a).getD i d = a := by
  simp [List.getD_eq_getElem?_getD, List.getElem?_set_self h]

theorem getD_set_ne {α : Type} (l : List α) (i j : Nat) (a d : α)
    (h : i ≠ j) : (l.set i a).getD j d = l.getD j d := by
  simp [List.getD_eq_getElem?_getD, List.getElem?_set_ne h]

theorem getD_replicate {α : Type} (n i : Nat) (a d : α) (h : i < n) :
    (List.replicate n a).getD i d = a := by
  simp [List.getD_eq_getElem?_getD, List.getElem?_eq_getElem
    (by simpa using h : i < (List.replicate n a).length)]

theorem getD_map_option {α β : Type} (l : List (Option α)) (f : Option α → Option β)
    (hf : f none = none) (j : Nat) :
    (l.map f).getD j none = f (l.getD j none) := by
  by_cases h : j < l.length
  · simp [List.getD_eq_getElem?_getD, List.getElem?_eq_getElem h,
      List.getElem?_eq_getElem (by simpa using h : j < (l.map f).length)]
  · rw [List.getD_eq_getElem?_getD, List.getD_eq_getElem?_getD,
      List.getElem?_eq_none (by simpa using Nat.le_of_not_lt h),
      List.getElem?_eq_none (by omega)]
    simp [hf]

theorem getD_range_map {α : Type} (F : Nat → α) (N j : Nat) (d : α) (h : j < N) :
    ((List.range N).map F).getD j d = F j := by
  rw [getD_lt _ _ _ (by simpa using h)]
  simp

/-! ### Partitioning a record list over destination buckets -/

theorem flatten_map_const_nil {α β : Type} (l : List α) :
    (l.map (fun _ => ([] : List β))).flatten = [] := by
  induction l with
  | nil => rfl
  | cons a l ih => simp [ih]

/-- Scattering a list into the buckets selected by f and concatenating the
buckets back in index order is a permutation of the original list. -/
theorem partition_flatten_perm {α : Type} (f : α → Nat) (N : Nat) :
    ∀ l : List α, (∀ a ∈ l, f a < N) →
      ((List.range N).map (fun j => l.filter (fun a => f a = j))).flatten.Perm l := by
  intro l
  induction l with
  | nil =>
    intro _
    simp only [List.filter_nil, flatten_map_const_nil]
    exact List.Perm.refl []
  | cons a l ih =>
    intro hb
    have ha : f a < N := hb a (by simp)
    have hl : ∀ x ∈ l, f x < N := fun x hx => hb x (by simp [hx])
    have h1 : List.range' (f a) (N - f a) = f a :: List.range' (f a + 1) (N - f a - 1) := by
      conv_lhs => rw [show N - f a = N - f a - 1 + 1 from by omega]
      rw [List.range'_succ]
    have happ := List.range'_append_1 0 (f a) (N - f a)
    rw [Nat.zero_add] at happ
    have hsplit : List.range N =
        List.range' 0 (f a) ++ f a :: List.range' (f a + 1) (N - f a - 1) := by
      rw [List.range_eq_range']
      calc List.range' 0 N = List.range' 0 (N - f a + f a) := by
            rw [show N - f a + f a = N from by omega]
        _ = List.range' 0 (f a) ++ List.range' (f a) (N - f a) := happ.symm
        _ = List.range' 0 (f a) ++ (f a :: List.range' (f a + 1) (N - f a - 1)) := by
            rw [h1]
    have hlow : ∀ j ∈ List.range' 0 (f a),
        (a :: l).filter (fun x => f x = j) = l.filter (fun x => f x = j) := by
      intro j hj
      rw [List.mem_range'] at hj
      obtain ⟨i, hi, rfl⟩ := hj
      rw [List.filter_cons, if_neg (by simp; omega)]
    have hhigh : ∀ j ∈ List.range' (f a + 1) (N - f a - 1),
        (a :: l).filter (fun x => f x = j) = l.filter (fun x => f x = j) := by
      intro j hj
      rw [List.mem_range'] at hj
      obtain ⟨i, hi, rfl⟩ := hj
      rw [List.filter_cons, if_neg (by simp; omega)]
    have hmid : (a :: l).filter (fun x => f x = f a) =
        a :: l.filter (fun x => f x = f a) := by
      rw [List.filter_cons, if_pos (by simp)]
    rw [hsplit]
    simp only [List.map_append, List.map_cons, List.flatten_append, List.flatten_cons]
    rw [List.map_congr_left hlow, List.map_congr_left hhigh, hmid]
    simp only [List.cons_append]
    have hflat :
        ((List.range' 0 (f a)).map (fun j => l.filter (fun x => f x = j))).flatten ++
          (l.filter (fun x => f x = f a) ++
            ((List.range' (f a + 1) (N - f a - 1)).map
              (fun j => l.filter (fun x => f x = j))).flatten) =
        ((List.range N).map (fun j => l.filter (fun x => f x = j))).flatten := by
      rw [hsplit]
      simp [List.append_assoc]
    have hrest :
        (((List.range' 0 (f a)).map (fun j => l.filter (fun x => f x = j))).flatten ++
          (l.filter (fun x => f x = f a) ++
            ((List.range' (f a + 1) (N - f a - 1)).map
              (fun j => l.filter (fun x => f x = j))).flatten)).Perm l := by
      rw [hflat]
      exact ih hl
    exact List.Perm.trans List.perm_middle (List.Perm.cons a hrest)

/-! ### Invariant accessors and table traversal under the representation -/

theorem rep_good_flatten {hash : List Nat → Nat} {T : ahtable_t}
    {recss : List (List Entry)} (h : TableRep hash T recss) :
    ∀ r ∈ recss.flatten, GoodEntry r := by
  intro r hr
  rw [List.mem_flatten] at hr
  obtain ⟨l, hl, hrl⟩ := hr
  obtain ⟨i, hilen, hieq⟩ := List.getElem_of_mem hl
  have hi : i < T.n := by
    rw [← h.2.2.1]
    exact hilen
  refine ((h.2.2.2.2.2.2 i hi).2 r ?_).1
  rw [getD_lt _ _ _ (by omega : i < recss.length)]
  simp only [List.get_eq_getElem, hieq]
  exact hrl

theorem rep_mem_slot {hash : List Nat → Nat} {T : ahtable_t}
    {recss : List (List Entry)} (h : TableRep hash T recss) (r : Entry)
    (hr : r ∈ recss.flatten) : r ∈ recss.getD (hash r.1 % T.n) [] := by
  rw [List.mem_flatten] at hr
  obtain ⟨l, hl, hrl⟩ := hr
  obtain ⟨i, hilen, hieq⟩ := List.getElem_of_mem hl
  have hi : i < T.n := by
    rw [← h.2.2.1]
    exact hilen
  have hgd : recss.getD i [] = l := by
    rw [getD_lt _ _ _ (by omega : i < recss.length)]
    simp only [List.get_eq_getElem, hieq]
  have hplace : hash r.1 % T.n = i :=
    ((h.2.2.2.2.2.2 i hi).2 r (by rw [hgd]; exact hrl)).2
  rw [hplace, hgd]
  exact hrl

theorem tableRecords_rep {hash : List Nat → Nat} {T : ahtable_t}
    {recss : List (List Entry)} (h : TableRep hash T recss) :
    tableRecords T = recss.flatten := by
  obtain ⟨hlen, hn, hrl, hmax, hm, hnd, hslot⟩ := h
  unfold tableRecords
  have htake : T.slots.take T.n = T.slots := by
    rw [← hlen]
    exact List.take_length T.slots
  rw [htake]
  have hmap : T.slots.map optRecords = recss := by
    apply List.ext_getElem
    · simp [hlen, hrl]
    · intro i h1 h2
      have hi : i < T.n := by
        rw [← hrl]
        exact h2
      have hib : i < T.slots.length := by
        simp at h1
        omega
      have hgetD : T.slots.getD i none = T.slots[i] := by
        rw [getD_lt _ _ _ hib]
        simp
      have hrecsD : recss.getD i [] = recss[i] := by
        rw [getD_lt _ _ _ h2]
        simp
      rcases (hslot i hi).1 with ⟨hs, hr⟩ | hs
      · rw [List.getElem_map]
        rw [hgetD] at hs
        rw [hrecsD] at hr
        rw [hs, hr]
        rfl
      · rw [List.getElem_map]
        rw [hgetD] at hs
        rw [hs]
        show slotRecords (encSlot (recss.getD i [])) = recss[i]
        rw [slotRecords_encSlot _ (fun r hr => ((hslot i hi).2 r hr).1), hrecsD]
  rw [hmap]

/-! ### The expansion fold -/

theorem foldl_place_length (g : Entry → Nat) (recs : List Entry) :
    ∀ s : List (Option (List Nat)),
      (recs.foldl (fun sl r => sl.set (g r)
        (some (((sl.getD (g r) none).getD []) ++ encEntry r))) s).length = s.length := by
  induction recs with
  | nil => intro s; rfl
  | cons r recs ih =>
    intro s
    rw [List.foldl_cons, ih]
    simp

theorem foldl_place_getD (g : Entry → Nat) :
    ∀ (recs : List Entry) (s : List (Option (List Nat))) (j : Nat),
      (∀ r ∈ recs, g r < s.length) →
      (recs.foldl (fun sl r => sl.set (g r)
          (some (((sl.getD (g r) none).getD []) ++ encEntry r))) s).getD j none =
        if recs.filter (fun r => g r = j) = [] then s.getD j none
        else some (((s.getD j none).getD []) ++
          slotBody (recs.filter (fun r => g r = j))) := by
  intro recs
  induction recs with
  | nil =>
    intro s j _
    simp
  | cons r recs ih =>
    intro s j hb
    have hrb : g r < s.length := hb r (by simp)
    have hrest : ∀ x ∈ recs, g x < (s.set (g r)
        (some (((s.getD (g r) none).getD []) ++ encEntry r))).length := by
      intro x hx
      rw [List.length_set]
      exact hb x (by simp [hx])
    rw [List.foldl_cons, ih _ j hrest]
    by_cases hj : g r = j
    · subst hj
      have hfc : (r :: recs).filter (fun x => g x = g r) =
          r :: recs.filter (fun x => g x = g r) := by
        simp [List.filter_cons]
      rw [hfc, if_neg (List.cons_ne_nil _ _), getD_set_self _ _ _ _ hrb, slotBody_cons]
      by_cases hfe : recs.filter (fun x => g x = g r) = []
      · rw [if_pos hfe, hfe, slotBody_nil, List.append_nil]
      · rw [if_neg hfe]
        simp [List.append_assoc]
    · have hfc : (r :: recs).filter (fun x => g x = j) =
          recs.filter (fun x => g x = j) := by
        simp [List.filter_cons, hj]
      rw [hfc, getD_set_ne _ _ _ _ _ (fun he => hj he)]

theorem expand_n (hash : List Nat → Nat) (T : ahtable_t) :
    (ahtable_expand hash T).n = 2 * T.n := rfl

theorem expand_m (hash : List Nat → Nat) (T : ahtable_t) :
    (ahtable_expand hash T).m = T.m := rfl

theorem expand_max_m (hash : List Nat → Nat) (T : ahtable_t) :
    (ahtable_expand hash T).max_m = ahtable_max_load_factor * (2 * T.n) := rfl

theorem expand_slots_def (hash : List Nat → Nat) (T : ahtable_t) :
    (ahtable_expand hash T).slots =
      ((tableRecords T).foldl (fun sl r => sl.set (hash r.1 % (2 * T.n))
          (some (((sl.getD (hash r.1 % (2 * T.n)) none).getD []) ++ encEntry r)))
        (List.replicate (2 * T.n) none)).map (Option.map (fun b => b ++ [0])) := rfl

theorem expand_slots_getD {hash : List Nat → Nat} {T : ahtable_t}
    {recss : List (List Entry)} (hrep : TableRep hash T recss) (j : Nat)
    (hj : j < 2 * T.n) :
    (ahtable_expand hash T).slots.getD j none =
      if recss.flatten.filter (fun r => hash r.1 % (2 * T.n) = j) = [] then none
      else some (encSlot (recss.flatten.filter (fun r => hash r.1 % (2 * T.n) = j))) := by
  rw [expand_slots_def]
  rw [getD_map_option _ _ rfl]
  rw [tableRecords_rep hrep]
  rw [foldl_place_getD (fun r => hash r.1 % (2 * T.n)) recss.flatten
    (List.replicate (2 * T.n) none) j ?_]
  · rw [getD_replicate _ _ _ _ hj]
    by_cases hfe : recss.flatten.filter (fun r => hash r.1 % (2 * T.n) = j) = []
    · rw [if_pos hfe, if_pos hfe]
      rfl
    · rw [if_neg hfe, if_neg hfe]
      simp [encSlot]
  · intro r _
    rw [List.length_replicate]
    exact Nat.mod_lt _ (by have := hrep.2.1; omega)

/-! ### Expansion preserves the records and the invariants -/

theorem expand_perm {hash : List Nat → Nat} {T : ahtable_t}
    {recss : List (List Entry)} (hrep : TableRep hash T recss) :
    (expandRecss hash (2 * T.n) recss.flatten).flatten.Perm recss.flatten := by
  apply partition_flatten_perm
  intro r _
  exact Nat.mod_lt _ (by have := hrep.2.1; omega)

theorem expand_rep {hash : List Nat → Nat} {T : ahtable_t}
    {recss : List (List Entry)} (hrep : TableRep hash T recss) :
    TableRep hash (ahtable_expand hash T)
      (expandRecss hash (2 * T.n) recss.flatten) := by
  have hn := hrep.2.1
  have hperm := expand_perm hrep
  refine ⟨?_, ?_, ?_, ?_, ?_, ?_, ?_⟩
  · rw [expand_slots_def, expand_n, List.length_map,
      foldl_place_length, List.length_replicate]
  · rw [expand_n]
    omega
  · rw [expand_n]
    simp [expandRecss]
  · rw [expand_max_m, expand_n]
  · rw [expand_m, hrep.2.2.2.2.1, hperm.length_eq]
  · exact ((hperm.map Prod.fst).nodup_iff).mpr hrep.2.2.2.2.2.1
  · intro j hj
    rw [expand_n] at hj
    have hgd : (expandRecss hash (2 * T.n) recss.flatten).getD j [] =
        recss.flatten.filter (fun r => hash r.1 % (2 * T.n) = j) := by
      unfold expandRecss
      exact getD_range_map _ _ _ _ hj
    constructor
    · rw [hgd, expand_slots_getD hrep j hj]
      by_cases hfe : recss.flatten.filter (fun r => hash r.1 % (2 * T.n) = j) = []
      · rw [if_pos hfe]
        exact Or.inl ⟨rfl, hfe⟩
      · rw [if_neg hfe]
        exact Or.inr rfl
    · intro r hr
      rw [hgd] at hr
      rw [List.mem_filter] at hr
      refine ⟨rep_good_flatten hrep r hr.1, ?_⟩
      rw [expand_n]
      simpa using hr.2

/-! ### Locating a key inside a bucket -/

theorem getD_mem {α : Type} (l : List α) (i : Nat) (d : α) (h : i < l.length) :
    l.getD i d ∈ l := by
  rw [getD_lt _ _ _ h]
  simp only [List.get_eq_getElem]
  exact List.getElem_mem h

theorem find_key_eq {l : List Entry} {r : Entry} (hnd : (l.map Prod.fst).Nodup)
    (hmem : r ∈ l) : l.find? (fun x => x.1 == r.1) = some r := by
  induction l with
  | nil => cases hmem
  | cons a l ih =>
    have hnd2 : (a.1 :: l.map Prod.fst).Nodup := by
      rw [List.map_cons] at hnd
      exact hnd
    rcases List.mem_cons.mp hmem with he | hm
    · subst he
      exact List.find?_cons_of_pos _ (by simp)
    · by_cases hk : a.1 = r.1
      · exfalso
        have hin : r.1 ∈ l.map Prod.fst := List.mem_map_of_mem Prod.fst hm
        have hni := (List.nodup_cons.mp hnd2).1
        rw [hk] at hni
        exact hni hin
      · rw [List.find?_cons_of_neg _ (by simp [hk])]
        exact ih (List.nodup_cons.mp hnd2).2 hm

theorem slot_mem_flatten {hash : List Nat → Nat} {T : ahtable_t}
    {recss : List (List Entry)} (hrep : TableRep hash T recss) (i : Nat)
    (hi : i < T.n) : ∀ x ∈ recss.getD i [], x ∈ recss.flatten := by
  intro x hx
  exact List.mem_flatten_of_mem (getD_mem recss i [] (by rw [hrep.2.2.1]; exact hi)) hx

/-! ### The behaviour of get_key_core under the invariants -/

theorem get_key_core_found {hash : List Nat → Nat} {T : ahtable_t}
    {recss : List (List Entry)} {key : List Nat} {r : Entry}
    (hrep : TableRep hash T recss) (hmem : r ∈ recss.flatten)
    (hkey : r.1 = key) (ins : Bool) :
    ∃ off, get_key_core hash T key ins = (T, some (hash key % T.n, off)) ∧
      valueAt T (hash key % T.n, off) = r.2 := by
  subst hkey
  have hi_lt : hash r.1 % T.n < T.n := Nat.mod_lt _ (by have := hrep.2.1; omega)
  have hslotmem : r ∈ recss.getD (hash r.1 % T.n) [] := rep_mem_slot hrep r hmem
  rcases (hrep.2.2.2.2.2.2 _ hi_lt).1 with ⟨hs, hre⟩ | hs
  · rw [hre] at hslotmem
    cases hslotmem
  · have hnd_slot : ((recss.getD (hash r.1 % T.n) []).map Prod.fst).Nodup := by
      have hsub : List.Sublist (recss.getD (hash r.1 % T.n) []) recss.flatten :=
        List.sublist_flatten_of_mem
          (getD_mem recss _ [] (by rw [hrep.2.2.1]; exact hi_lt))
      exact hrep.2.2.2.2.2.1.sublist (hsub.map Prod.fst)
    have hgood : ∀ x ∈ recss.getD (hash r.1 % T.n) [], GoodEntry x :=
      fun x hx => ((hrep.2.2.2.2.2.2 _ hi_lt).2 x hx).1
    have hfind := find_key_eq hnd_slot hslotmem
    obtain ⟨loc, hres, hval, hbound⟩ :=
      scanGo_slot_hit r.1 _ hgood r hfind
        (encSlot (recss.getD (hash r.1 % T.n) [])).length 0 (le_refl _)
    rw [Nat.zero_add] at hres
    refine ⟨loc, ?_, ?_⟩
    · simp only [get_key_core, hs, hres]
    · unfold valueAt
      simp only [hs, Option.getD_some]
      exact hval

theorem get_key_core_absent {hash : List Nat → Nat} {T : ahtable_t}
    {recss : List (List Entry)} {key : List Nat} (hrep : TableRep hash T recss)
    (hnone : ∀ x ∈ recss.flatten, x.1 ≠ key) :
    get_key_core hash T key false = (T, none) ∧
    ∃ pre : List Nat,
      get_key_core hash T key true =
        (insertResult T (hash key % T.n) (pre ++ (ins_key key).1 ++ [0]),
         some (hash key % T.n, pre.length + (ins_key key).2)) := by
  have hi_lt : hash key % T.n < T.n := Nat.mod_lt _ (by have := hrep.2.1; omega)
  rcases (hrep.2.2.2.2.2.2 _ hi_lt).1 with ⟨hs, hre⟩ | hs
  · constructor
    · simp only [get_key_core, hs]
      simp
    · refine ⟨[], ?_⟩
      simp only [get_key_core, hs]
      simp [insertResult]
  · have hne_slot : ∀ x ∈ recss.getD (hash key % T.n) [], x.1 ≠ key :=
      fun x hx => hnone x (slot_mem_flatten hrep _ hi_lt x hx)
    have hgood : ∀ x ∈ recss.getD (hash key % T.n) [], GoodEntry x :=
      fun x hx => ((hrep.2.2.2.2.2.2 _ hi_lt).2 x hx).1
    have hmiss := scanGo_slot_miss key _ hgood hne_slot
      (encSlot (recss.getD (hash key % T.n) [])).length 0 (le_refl _)
    rw [Nat.zero_add] at hmiss
    constructor
    · simp only [get_key_core, hs, hmiss]
      simp
    · refine ⟨slotBody (recss.getD (hash key % T.n) []), ?_⟩
      simp only [get_key_core, hs, hmiss]
      rw [show (encSlot (recss.getD (hash key % T.n) [])).take
          (slotBody (recss.getD (hash key % T.n) [])).length =
          slotBody (recss.getD (hash key % T.n) []) from List.take_left _ _]
      simp [insertResult, List.append_assoc]

theorem get_key_core_false_fst (hash : List Nat → Nat) (T : ahtable_t)
    (key : List Nat) : (get_key_core hash T key false).1 = T := by
  simp only [get_key_core]
  cases hslot : T.slots.getD (hash key % T.n) none with
  | none => simp
  | some s =>
    cases hscan : scanGo key s.length s 0 with
    | hit off => simp [hscan]
    | miss stop => simp [hscan]

theorem ahtable_tryget_eq_core (hash : List Nat → Nat) (T : ahtable_t)
    (key : List Nat) : ahtable_tryget hash T key = get_key_core hash T key false := by
  unfold ahtable_tryget get_key
  rw [if_neg (by simp)]

theorem ahtable_get_eq_core (hash : List Nat → Nat) (T : ahtable_t)
    (key : List Nat) : ahtable_get hash T key =
      get_key_core hash (if T.max_m ≤ T.m then ahtable_expand hash T else T)
        key true := by
  unfold ahtable_get get_key
  by_cases h : T.max_m ≤ T.m
  · rw [if_pos (by simp [h]), if_pos h]
  · rw [if_neg (by simp [h]), if_neg h]

/-! ### Size and capacity bookkeeping of get_key -/

theorem get_key_core_m_max (hash : List Nat → Nat) (T : ahtable_t)
    (key : List Nat) (ins : Bool) :
    (get_key_core hash T key ins).1.m ≤ T.m + 1 ∧
    (get_key_core hash T key ins).1.max_m = T.max_m ∧
    (get_key_core hash T key ins).1.n = T.n := by
  simp only [get_key_core]
  split
  · split
    · exact ⟨Nat.le_refl (T.m + 1), rfl, rfl⟩
    · exact ⟨Nat.le_succ T.m, rfl, rfl⟩
  · split
    · exact ⟨Nat.le_succ T.m, rfl, rfl⟩
    · split
      · exact ⟨Nat.le_refl (T.m + 1), rfl, rfl⟩
      · exact ⟨Nat.le_succ T.m, rfl, rfl⟩

theorem insert_slot_getD (T : ahtable_t) (i : Nat) (buf : List Nat)
    (h : i < T.slots.length) :
    (insertResult T i buf).slots.getD i none = some buf := by
  unfold insertResult
  exact getD_set_self _ _ _ _ h

theorem valueAt_insert (T : ahtable_t) (i : Nat) (pre key : List Nat)
    (h : i < T.slots.length) :
    valueAt (insertResult T i (pre ++ (ins_key key).1 ++ [0]))
      (i, pre.length + (ins_key key).2) = List.replicate valueSize 0 := by
  unfold valueAt
  rw [insert_slot_getD T i _ h]
  simp only [Option.getD_some]
  have hshape : pre ++ (ins_key key).1 ++ [0] =
      pre ++ ((lenEnc key.length ++ key) ++
        (List.replicate valueSize 0 ++ [0])) := by
    unfold ins_key
    simp [List.append_assoc]
  rw [hshape]
  have hoff : pre.length + (ins_key key).2 =
      pre.length + ((lenEnc key.length).length + key.length) := rfl
  rw [hoff, drop_append_len]
  rw [List.drop_left' (by simp)]
  rw [List.take_left' (by simp)]

/-! ### Claim theorems -/

/-- C3 (counterexample): the entry points do not reject a zero-length key.
On a fresh table, get with the empty key mutates the table (m becomes 1)
and returns a value handle instead of failing and leaving the table
unchanged. -/
theorem c3_reject_counterexample :
    (ahtable_get hashZero ahtable_create []).1.m = 1 ∧
    (ahtable_get hashZero ahtable_create []).2 = some (0, 1) ∧
    ¬ ((ahtable_get hashZero ahtable_create []).1 = ahtable_create ∧
       (ahtable_get hashZero ahtable_create []).2 = none) := by
  decide

/-- C3 (amended): get_key performs no key-length validation.  On any table
satisfying the bucket-layout invariants, a key with L = 0 or L > 32767 is
never found (stored records have 1 <= L <= 32767), so tryget returns
absent without mutating the table, while get inserts a record for the
invalid key and increments m instead of rejecting it. -/
theorem c3_no_length_validation (hash : List Nat → Nat) (T : ahtable_t)
    (recss : List (List Entry)) (key : List Nat) (hrep : TableRep hash T recss)
    (hbad : key.length = 0 ∨ 32767 < key.length) :
    (ahtable_get hash T key).1.m = T.m + 1 ∧
    ahtable_tryget hash T key = (T, none) := by
  have habs : ∀ x ∈ recss.flatten, x.1 ≠ key := by
    intro x hx he
    have hg := rep_good_flatten hrep x hx
    have hlen : x.1.length = key.length := by rw [he]
    obtain ⟨⟨hl1, hl2, -⟩, -⟩ := hg
    rcases hbad with hb | hb <;> omega
  constructor
  · rw [ahtable_get_eq_core]
    by_cases h : T.max_m ≤ T.m
    · rw [if_pos h]
      have hrep1 := expand_rep hrep
      have habs1 : ∀ x ∈ (expandRecss hash (2 * T.n) recss.flatten).flatten,
          x.1 ≠ key := fun x hx => habs x ((expand_perm hrep).mem_iff.mp hx)
      obtain ⟨pre, hcore⟩ := (get_key_core_absent hrep1 habs1).2
      rw [hcore]
      rfl
    · rw [if_neg h]
      obtain ⟨pre, hcore⟩ := (get_key_core_absent hrep habs).2
      rw [hcore]
      rfl
  · rw [ahtable_tryget_eq_core]
    exact (get_key_core_absent hrep habs).1

theorem c3_no_length_validation_witness :
    TableRep hashZero ahtable_create (List.replicate 8 []) ∧
    ((ahtable_get hashZero ahtable_create []).1.m = ahtable_create.m + 1 ∧
     ahtable_tryget hashZero ahtable_create [] = (ahtable_create, none)) :=
  ⟨by decide, c3_no_length_validation hashZero ahtable_create
    (List.replicate 8 []) [] (by decide) (Or.inl (by decide))⟩

/-- C5: tryget never mutates the table, and on a table satisfying the
invariants it returns the value handle of the record carrying the key
when present and absent (none) otherwise. -/
theorem c5_tryget_spec (hash : List Nat → Nat) (T : ahtable_t)
    (recss : List (List Entry)) (key : List Nat) (hrep : TableRep hash T recss) :
    (ahtable_tryget hash T key).1 = T ∧
    (∀ r, recss.flatten.find? (fun x => x.1 == key) = some r →
      ∃ h, ahtable_tryget hash T key = (T, some h) ∧ valueAt T h = r.2) ∧
    (recss.flatten.find? (fun x => x.1 == key) = none →
      ahtable_tryget hash T key = (T, none)) := by
  refine ⟨?_, ?_, ?_⟩
  · rw [ahtable_tryget_eq_core]
    exact get_key_core_false_fst hash T key
  · intro r hfind
    have hmem := List.mem_of_find?_eq_some hfind
    have hkey : r.1 = key := by simpa using List.find?_some hfind
    obtain ⟨off, hres, hval⟩ := get_key_core_found hrep hmem hkey false
    refine ⟨(hash key % T.n, off), ?_, hval⟩
    rw [ahtable_tryget_eq_core, hres]
  · intro hfind
    have hnone : ∀ x ∈ recss.flatten, x.1 ≠ key := by
      intro x hx
      simpa using List.find?_eq_none.mp hfind x hx
    rw [ahtable_tryget_eq_core]
    exact (get_key_core_absent hrep hnone).1

theorem c5_tryget_spec_witness :
    TableRep hashZero exTable exRecss ∧
    (ahtable_tryget hashZero exTable [97]).1 = exTable :=
  ⟨by decide, (c5_tryget_spec hashZero exTable exRecss [97] (by decide)).1⟩

/-- C8: a full iterator traversal of a table satisfying the invariants
yields exactly the stored records, bucket by bucket in ascending index
order and in insertion order inside each bucket, and the number of
records visited equals size(T). -/
theorem c8_iteration_spec (hash : List Nat → Nat) (T : ahtable_t)
    (recss : List (List Entry)) (hrep : TableRep hash T recss) :
    tableRecords T = recss.flatten ∧
    (tableRecords T).length = ahtable_size T := by
  refine ⟨tableRecords_rep hrep, ?_⟩
  rw [tableRecords_rep hrep]
  exact hrep.2.2.2.2.1.symm

theorem c8_iteration_spec_witness :
    TableRep hashZero exTable exRecss ∧
    (tableRecords exTable = exRecss.flatten ∧
     (tableRecords exTable).length = ahtable_size exTable) :=
  ⟨by decide, c8_iteration_spec hashZero exTable exRecss (by decide)⟩

/-- C9: in any state satisfying the maintained capacity invariants
(max_m = 5 * n, n >= 1, m <= max_m), after a get - which preemptively
expands when m >= max_m - the load factor bound m <= max_m holds again,
whether or not the key was new. -/
theorem c9_load_factor_bound (hash : List Nat → Nat) (T : ahtable_t)
    (key : List Nat) (h1 : T.max_m = ahtable_max_load_factor * T.n)
    (h2 : 1 ≤ T.n) (h3 : T.m ≤ T.max_m) :
    (ahtable_get hash T key).1.m ≤ (ahtable_get hash T key).1.max_m := by
  have h5 : ahtable_max_load_factor = 5 := rfl
  rw [ahtable_get_eq_core]
  by_cases h : T.max_m ≤ T.m
  · rw [if_pos h]
    obtain ⟨hm, hmax, -⟩ := get_key_core_m_max hash (ahtable_expand hash T) key true
    rw [hmax, expand_max_m]
    have hm2 : (ahtable_expand hash T).m = T.m := expand_m hash T
    rw [hm2] at hm
    rw [h5] at h1 ⊢
    omega
  · rw [if_neg h]
    obtain ⟨hm, hmax, -⟩ := get_key_core_m_max hash T key true
    rw [hmax]
    omega

theorem c9_load_factor_bound_witness :
    ahtable_create.max_m = ahtable_max_load_factor * ahtable_create.n ∧
    1 ≤ ahtable_create.n ∧ ahtable_create.m ≤ ahtable_create.max_m ∧
    (ahtable_get hashZero ahtable_create [97]).1.m ≤
      (ahtable_get hashZero ahtable_create [97]).1.max_m :=
  ⟨by decide, by decide, by decide,
   c9_load_factor_bound hashZero ahtable_create [97] (by decide) (by decide)
     (by decide)⟩

/-- C10: create_n builds an empty table: m = 0, max_m = 5 * n, n buckets
all NULL, zeroed metadata triple; create is create_n 8; and tryget of any
key on such a table returns absent without change. -/
theorem c10_create_spec (n : Nat) (h : 1 ≤ n) :
    (ahtable_create_n n).m = 0 ∧
    (ahtable_create_n n).max_m = ahtable_max_load_factor * n ∧
    (ahtable_create_n n).n = n ∧
    (ahtable_create_n n).flag = 0 ∧
    (ahtable_create_n n).c0 = 0 ∧
    (ahtable_create_n n).c1 = 0 ∧
    (ahtable_create_n n).slots = List.replicate n none ∧
    ahtable_create = ahtable_create_n 8 ∧
    ∀ (hash : List Nat → Nat) (key : List Nat),
      ahtable_tryget hash (ahtable_create_n n) key = (ahtable_create_n n, none) := by
  refine ⟨rfl, rfl, rfl, rfl, rfl, rfl, rfl, rfl, ?_⟩
  intro hash key
  rw [ahtable_tryget_eq_core]
  have hs : (ahtable_create_n n).slots.getD
      (hash key % (ahtable_create_n n).n) none = none := by
    show (List.replicate n none).getD (hash key % n) none = none
    exact getD_replicate _ _ _ _ (Nat.mod_lt _ (by omega))
  simp only [get_key_core, hs]
  simp

theorem c10_create_spec_witness :
    1 ≤ 8 ∧ (ahtable_create_n 8).m = 0 ∧
    ahtable_tryget hashZero (ahtable_create_n 8) [97] = (ahtable_create_n 8, none) :=
  ⟨by decide, (c10_create_spec 8 (by decide)).1,
   (c10_create_spec 8 (by decide)).2.2.2.2.2.2.2.2 hashZero [97]⟩

/-- C4: on a table satisfying the bucket-layout invariants, expansion
replaces the bucket array with one of 2n buckets, sets n to 2n and max_m
to 5 * (2n), leaves m unchanged, preserves the multiset of records, and
places every record in bucket hash(key) mod 2n. -/
theorem c4_expand_spec (hash : List Nat → Nat) (T : ahtable_t)
    (recss : List (List Entry)) (hrep : TableRep hash T recss) :
    (ahtable_expand hash T).n = 2 * T.n ∧
    (ahtable_expand hash T).max_m = ahtable_max_load_factor * (2 * T.n) ∧
    (ahtable_expand hash T).m = T.m ∧
    (ahtable_expand hash T).slots.length = 2 * T.n ∧
    (tableRecords (ahtable_expand hash T) : Multiset Entry) =
      (tableRecords T : Multiset Entry) ∧
    ∀ j, j < 2 * T.n →
      ∀ r ∈ optRecords ((ahtable_expand hash T).slots.getD j none),
        hash r.1 % (2 * T.n) = j := by
  refine ⟨expand_n hash T, expand_max_m hash T, expand_m hash T, ?_, ?_, ?_⟩
  · have hl := (expand_rep hrep).1
    rw [expand_n] at hl
    exact hl
  · rw [tableRecords_rep (expand_rep hrep), tableRecords_rep hrep]
    exact Multiset.coe_eq_coe.mpr (expand_perm hrep)
  · intro j hj r hr
    rw [expand_slots_getD hrep j hj] at hr
    by_cases hfe : recss.flatten.filter (fun x => hash x.1 % (2 * T.n) = j) = []
    · rw [if_pos hfe] at hr
      cases hr
    · rw [if_neg hfe] at hr
      have hgood : ∀ x ∈ recss.flatten.filter
          (fun x => hash x.1 % (2 * T.n) = j), GoodEntry x :=
        fun x hx => rep_good_flatten hrep x (List.mem_filter.mp hx).1
      have hopt : optRecords (some (encSlot (recss.flatten.filter
          (fun x => hash x.1 % (2 * T.n) = j)))) =
          recss.flatten.filter (fun x => hash x.1 % (2 * T.n) = j) := by
        show slotRecords (encSlot _) = _
        exact slotRecords_encSlot _ hgood
      rw [hopt] at hr
      simpa using (List.mem_filter.mp hr).2

theorem c4_expand_spec_witness :
    TableRep hashZero exTable exRecss ∧
    ((ahtable_expand hashZero exTable).n = 2 * exTable.n ∧
     (ahtable_expand hashZero exTable).m = exTable.m) :=
  ⟨by decide, (c4_expand_spec hashZero exTable exRecss (by decide)).1 |>.symm ▸
    ⟨(c4_expand_spec hashZero exTable exRecss (by decide)).1,
     (c4_expand_spec hashZero exTable exRecss (by decide)).2.2.1⟩⟩

/-- C6: for a key of valid length on a table satisfying the invariants,
get returns the existing value handle without incrementing m when the key
is present, and otherwise appends a freshly encoded record (with zeroed
value field) at the end of the destination bucket, increments m by one
and returns a handle reading zero. -/
theorem c6_get_spec (hash : List Nat → Nat) (T : ahtable_t)
    (recss : List (List Entry)) (key : List Nat) (hrep : TableRep hash T recss)
    (hlen1 : 1 ≤ key.length) (hlen2 : key.length ≤ 32767) :
    (∀ r, recss.flatten.find? (fun x => x.1 == key) = some r →
      (ahtable_get hash T key).1.m = T.m ∧
      ∃ h, (ahtable_get hash T key).2 = some h ∧
        valueAt (ahtable_get hash T key).1 h = r.2) ∧
    (recss.flatten.find? (fun x => x.1 == key) = none →
      (ahtable_get hash T key).1.m = T.m + 1 ∧
      ∃ h pre, (ahtable_get hash T key).2 = some h ∧
        (ahtable_get hash T key).1.slots.getD h.1 none =
          some (pre ++ (ins_key key).1 ++ [0]) ∧
        valueAt (ahtable_get hash T key).1 h = List.replicate valueSize 0) := by
  constructor
  · intro r hfind
    have hmem := List.mem_of_find?_eq_some hfind
    have hkey : r.1 = key := by simpa using List.find?_some hfind
    rw [ahtable_get_eq_core]
    by_cases h : T.max_m ≤ T.m
    · rw [if_pos h]
      have hrep1 := expand_rep hrep
      have hmem1 : r ∈ (expandRecss hash (2 * T.n) recss.flatten).flatten :=
        (expand_perm hrep).mem_iff.mpr hmem
      obtain ⟨off, hres, hval⟩ := get_key_core_found hrep1 hmem1 hkey true
      rw [hres]
      exact ⟨rfl, ⟨(hash key % (ahtable_expand hash T).n, off), rfl, hval⟩⟩
    · rw [if_neg h]
      obtain ⟨off, hres, hval⟩ := get_key_core_found hrep hmem hkey true
      rw [hres]
      exact ⟨rfl, ⟨(hash key % T.n, off), rfl, hval⟩⟩
  · intro hfind
    have hnone : ∀ x ∈ recss.flatten, x.1 ≠ key := by
      intro x hx
      simpa using List.find?_eq_none.mp hfind x hx
    rw [ahtable_get_eq_core]
    by_cases h : T.max_m ≤ T.m
    · rw [if_pos h]
      have hrep1 := expand_rep hrep
      have hnone1 : ∀ x ∈ (expandRecss hash (2 * T.n) recss.flatten).flatten,
          x.1 ≠ key := fun x hx => hnone x ((expand_perm hrep).mem_iff.mp hx)
      obtain ⟨pre, hcore⟩ := (get_key_core_absent hrep1 hnone1).2
      rw [hcore]
      have hb : hash key % (ahtable_expand hash T).n <
          (ahtable_expand hash T).slots.length := by
        rw [hrep1.1]
        exact Nat.mod_lt _ (by have := hrep1.2.1; omega)
      refine ⟨rfl, (hash key % (ahtable_expand hash T).n,
        pre.length + (ins_key key).2), pre, rfl, ?_, ?_⟩
      · exact insert_slot_getD _ _ _ hb
      · exact valueAt_insert _ _ _ _ hb
    · rw [if_neg h]
      obtain ⟨pre, hcore⟩ := (get_key_core_absent hrep hnone).2
      rw [hcore]
      have hb : hash key % T.n < T.slots.length := by
        rw [hrep.1]
        exact Nat.mod_lt _ (by have := hrep.2.1; omega)
      refine ⟨rfl, (hash key % T.n, pre.length + (ins_key key).2), pre, rfl, ?_, ?_⟩
      · exact insert_slot_getD _ _ _ hb
      · exact valueAt_insert _ _ _ _ hb

theorem c6_get_spec_witness :
    TableRep hashZero exTable exRecss ∧ 1 ≤ ([98] : List Nat).length ∧
    ([98] : List Nat).length ≤ 32767 ∧
    ((ahtable_get hashZero exTable [98]).1.m = exTable.m + 1 ∧
      ∃ h pre, (ahtable_get hashZero exTable [98]).2 = some h ∧
        (ahtable_get hashZero exTable [98]).1.slots.getD h.1 none =
          some (pre ++ (ins_key [98]).1 ++ [0]) ∧
        valueAt (ahtable_get hashZero exTable [98]).1 h =
          List.replicate valueSize 0) :=
  ⟨by decide, by decide, by decide,
   (c6_get_spec hashZero exTable exRecss [98] (by decide) (by decide)
     (by decide)).2 (by decide)⟩

/-- C1 (failing input): the round trip fails for a key of length 256.
ins_key stores the two-byte prefix of 256 | 0x8000 = 0x8100 little-endian
as [0x00, 0x81]; the scan of get_key tests the high bit of byte 0, which
is clear, reads the 0x00 as the bucket terminator and misses.  So after
inserting the key and writing 7 through the returned handle, tryget
returns absent even though the record (with value 7) is still stored and
size reports 1. -/
theorem c1_roundtrip_length256_bug :
    (ahtable_get hashZero ahtable_create (List.replicate 256 97)).2 =
      some (0, 258) ∧
    leVal (valueAt (writeValue
      (ahtable_get hashZero ahtable_create (List.replicate 256 97)).1
      (0, 258) 7) (0, 258)) = 7 ∧
    (ahtable_tryget hashZero (writeValue
      (ahtable_get hashZero ahtable_create (List.replicate 256 97)).1
      (0, 258) 7) (List.replicate 256 97)).2 = none ∧
    ahtable_size (writeValue
      (ahtable_get hashZero ahtable_create (List.replicate 256 97)).1
      (0, 258) 7) = 1 := by
  decide

/-- C2 (failing input): ahtable_clear does not reset m (nor max_m).  After
inserting one key into a fresh table and clearing it, every bucket is
freed and iteration yields nothing, yet size still reports 1 - not 0 as
the claim requires - and max_m keeps its stale value. -/
theorem c2_clear_size_bug :
    ahtable_size (ahtable_clear (ahtable_get hashZero ahtable_create [97]).1) = 1 ∧
    tableRecords (ahtable_clear (ahtable_get hashZero ahtable_create [97]).1) = [] ∧
    (ahtable_clear (ahtable_get hashZero ahtable_create [97]).1).n = 8 ∧
    (ahtable_clear (ahtable_get hashZero ahtable_create [97]).1).max_m = 40 := by
  decide

/-- C7 (failing input): for L = 256 the encoder emits [0x00, 0x81]: the
little-endian low byte of 256 | 0x8000 is 0x00, so the high bit of byte 0
is NOT set, decodeLen reads a terminator, and the iterator recovers no
record at all from a bucket holding one length-256 key - decode after
encode is not the identity. -/
theorem c7_length_prefix_bug :
    lenEnc 256 = [0, 129] ∧
    (0 &&& 128 = 0) ∧
    slotRecords (encSlot [(List.replicate 256 97, List.replicate 8 0)]) = [] ∧
    scanGo (List.replicate 256 97)
      (encSlot [(List.replicate 256 97, List.replicate 8 0)]).length
      (encSlot [(List.replicate 256 97, List.replicate 8 0)]) 0 =
      ScanResult.miss 0 := by
  decide
